import Mathlib

/-!
Verification of the nis-ccp classical-cipher engine.

The Python sources (`cipher_core.py`, `attack_tools.py`) are shallowly
embedded below.  Text is modelled as `List Char`; Python `str.isalpha` /
`str.upper` are modelled by `Char.isAlpha` / `Char.toUpper` (the engine's
scope is the 26-letter Latin alphabet; on that range the Lean functions
agree with Python's).  Python integers are `Int` / `Nat`; Python's `%` on a
positive modulus agrees with `Int.emod`.  Python exceptions
(`ValueError`) become an explicit error type; Python floats in the scoring
table are modelled exactly as rationals.
-/

/-- `ALPHABET = "ABCDEFGHIJKLMNOPQRSTUVWXYZ"` from `cipher_core.py`. -/
def ALPHABET : List Char :=
  ['A','B','C','D','E','F','G','H','I','J','K','L','M',
   'N','O','P','Q','R','S','T','U','V','W','X','Y','Z']

/-- The 26 lowercase Latin letters (used only to enumerate characters in
proofs about `Char.toUpper`). -/
def LOWERS : List Char :=
  ['a','b','c','d','e','f','g','h','i','j','k','l','m',
   'n','o','p','q','r','s','t','u','v','w','x','y','z']

/-- Error kinds of the engine, named after the spec's error model:
`keyError` is `ValueError("Vigenere key must contain letters")`,
`paramError` is `ValueError("a has no modular inverse mod 26")`. -/
inductive CipherError where
  | keyError
  | paramError
deriving DecidableEq, Repr

/-- `clean_text` from `cipher_core.py` (default `keep_nonletters=False`). -/
def clean_text (s : List Char) (keep_nonletters : Bool) : List Char :=
  if keep_nonletters then s.map Char.toUpper
  else (s.filter Char.isAlpha).map Char.toUpper

/-- The key normalisation both Vigenere routines perform:
`''.join([k for k in key.upper() if k.isalpha()])`. -/
def vigenere_key_letters (key : List Char) : List Char :=
  (key.map Char.toUpper).filter Char.isAlpha

/-- Loop body of `vigenere_encrypt`: `ki` is the running key index, which
advances only on alphabetic characters.  In-bounds list accesses are written
with `getD` (the Python code indexes `ALPHABET` only at values `< 26`). -/
def vigenere_encrypt_go (key_letters : List Char) : List Char → Nat → List Char
  | [], _ => []
  | ch :: rest, ki =>
    if ch.isAlpha then
      let p := ALPHABET.indexOf ch.toUpper
      let k := ALPHABET.indexOf (key_letters.getD (ki % key_letters.length) 'A')
      ALPHABET.getD ((p + k) % 26) 'A' :: vigenere_encrypt_go key_letters rest (ki + 1)
    else
      ch :: vigenere_encrypt_go key_letters rest ki

/-- `vigenere_encrypt` from `cipher_core.py`. -/
def vigenere_encrypt (plaintext key : List Char) : Except CipherError (List Char) :=
  let key_letters := vigenere_key_letters key
  if key_letters.length = 0 then .error .keyError
  else .ok (vigenere_encrypt_go key_letters plaintext 0)

/-- Loop body of `vigenere_decrypt`; `(c - k) % 26` is computed in `Int`
because the Python subtraction can be negative. -/
def vigenere_decrypt_go (key_letters : List Char) : List Char → Nat → List Char
  | [], _ => []
  | ch :: rest, ki =>
    if ch.isAlpha then
      let c : Int := ALPHABET.indexOf ch.toUpper
      let k : Int := ALPHABET.indexOf (key_letters.getD (ki % key_letters.length) 'A')
      ALPHABET.getD ((c - k) % 26).toNat 'A' :: vigenere_decrypt_go key_letters rest (ki + 1)
    else
      ch :: vigenere_decrypt_go key_letters rest ki

/-- `vigenere_decrypt` from `cipher_core.py`. -/
def vigenere_decrypt (ciphertext key : List Char) : Except CipherError (List Char) :=
  let key_letters := vigenere_key_letters key
  if key_letters.length = 0 then .error .keyError
  else .ok (vigenere_decrypt_go key_letters ciphertext 0)

/-- `mod_inverse` from `cipher_core.py` (Python default `m=26`; every call
site passes 26).  `for x in range(1, m)` returns the first hit. -/
def mod_inverse (a : Int) (m : Int) : Option Int :=
  let a' := a % m
  ((List.range' 1 (m - 1).toNat).map (fun x : Nat => (x : Int))).find?
    (fun x => (a' * x) % m == 1)

/-- `affine_encrypt` from `cipher_core.py`. -/
def affine_encrypt (plaintext : List Char) (a b : Int) : List Char :=
  plaintext.map fun ch =>
    if ch.isAlpha then
      let p : Int := ALPHABET.indexOf ch.toUpper
      ALPHABET.getD ((a * p + b) % 26).toNat 'A'
    else ch

/-- `affine_decrypt` from `cipher_core.py`; raises (returns) `paramError`
when `a` has no modular inverse mod 26. -/
def affine_decrypt (ciphertext : List Char) (a b : Int) : Except CipherError (List Char) :=
  match mod_inverse a 26 with
  | none => .error .paramError
  | some a_inv => .ok (ciphertext.map fun ch =>
      if ch.isAlpha then
        let c : Int := ALPHABET.indexOf ch.toUpper
        ALPHABET.getD ((a_inv * (c - b)) % 26).toNat 'A'
      else ch)

/-- `derive_affine_params_from_key` from `cipher_core.py`: `a = 5`,
`b = sum(ord(c) for c in key) % 26` over the raw (un-normalised) key. -/
def derive_affine_params_from_key (key : List Char) : Int × Int :=
  (5, ((key.map Char.toNat).sum : Int) % 26)

/-- `combined_encrypt` from `cipher_core.py`. -/
def combined_encrypt (plaintext key : List Char) (keep_nonletters : Bool) :
    Except CipherError (List Char) := do
  let text := clean_text plaintext keep_nonletters
  let stage1 ← vigenere_encrypt text key
  let p := derive_affine_params_from_key key
  pure (affine_encrypt stage1 p.1 p.2)

/-- `combined_decrypt` from `cipher_core.py`.  (`keep_nonletters` is unused
by the source as well.) -/
def combined_decrypt (ciphertext key : List Char) (keep_nonletters : Bool) :
    Except CipherError (List Char) := do
  let p := derive_affine_params_from_key key
  let stage1 ← affine_decrypt ciphertext p.1 p.2
  vigenere_decrypt stage1 key

/-! ## `attack_tools.py` -/

/-- `ENGLISH_FREQ` from `attack_tools.py`, in the dict's insertion order
(the order `.items()` iterates).  The float percentages are exact decimals,
modelled as rationals. -/
def ENGLISH_FREQ : List (Char × ℚ) :=
  [('A', 8.167), ('B', 1.492), ('C', 2.782), ('D', 4.253), ('E', 12.702), ('F', 2.228),
   ('G', 2.015), ('H', 6.094), ('I', 6.966), ('J', 0.153), ('K', 0.772), ('L', 4.025),
   ('M', 2.406), ('N', 6.749), ('O', 7.507), ('P', 1.929), ('Q', 0.095), ('R', 5.987),
   ('S', 6.327), ('T', 9.056), ('U', 2.758), ('V', 0.978), ('W', 2.360), ('X', 0.150),
   ('Y', 1.974), ('Z', 0.074)]

/-- `calculate_english_score` from `attack_tools.py`.  `ch in ALPHABET`
(Python substring membership for a single character) is list membership;
`Counter(text_upper)[letter]` is `List.count`. -/
def calculate_english_score (text : List Char) : ℚ :=
  if text = [] then 0
  else
    let text_upper := text.map Char.toUpper
    let total_chars := (text_upper.filter (fun ch => ALPHABET.contains ch)).length
    if total_chars = 0 then 0
    else
      ENGLISH_FREQ.foldl
        (fun score lf =>
          let observed_count := text_upper.count lf.1
          let observed_freq := ((observed_count : ℚ) / (total_chars : ℚ)) * 100
          score + max 0 (10 - |observed_freq - lf.2|))
        0

/-- One entry of the `results` list built by `known_plaintext_attack`. -/
structure KPACandidate where
  affine_a : Int
  affine_b : Int
  vigenere_key : List Char
  plaintext : List Char
  english_score : ℚ
  position : Nat
  attempts : Nat
deriving DecidableEq, Repr

/-- The outcomes `known_plaintext_attack` can return (the Python function
returns each as a formatted string; rendering is outside the core). -/
inductive KPAReport where
  | needAlpha
  | tooShort
  | tooLong
  | failed (attempts : Nat)
  | success (attempts : Nat) (unique_results : List KPACandidate)
deriving DecidableEq, Repr

/-- `valid_as` — the 12 affine multipliers coprime with 26, in the order the
source lists them. -/
def valid_as : List Int := [1, 3, 5, 7, 9, 11, 15, 17, 19, 21, 23, 25]

/-- The alignment offsets scanned by `known_plaintext_attack`
(line 102: `range(min(5, len(c_clean) - len(p_clean) + 1))`). -/
def kpa_start_positions (c_clean p_clean : List Char) : List Nat :=
  List.range (min 5 (c_clean.length - p_clean.length + 1))

/-- Key-fragment derivation (lines 109-121): pairs the affine-stripped
segment with the known plaintext (the `i < len(affine_segment)` guard is
`zipWith` truncation) and emits `ALPHABET[(vig_idx - plain_idx) % 26]`. -/
def kpa_derived_key (affine_segment p_clean : List Char) : List Char :=
  List.zipWith
    (fun vig_char plain_char =>
      let vig_idx : Int := ALPHABET.indexOf vig_char
      let plain_idx : Int := ALPHABET.indexOf plain_char
      ALPHABET.getD ((vig_idx - plain_idx) % 26).toNat 'A')
    affine_segment p_clean

/-- The key lengths tried for a derived key
(line 127: `range(10, min(20, len(derived_key) + 1))`). -/
def kpa_keylens (derived_key : List Char) : List Nat :=
  List.range' 10 (min 20 (derived_key.length + 1) - 10)

/-- Body of the `try` block for one `(a, b)` pair (lines 97-148).  The
`except: continue` is the `.error` branch; inner operations cannot raise on
the all-letter inputs this receives, so skipping just the failing unit is
equivalent to Python aborting the whole `(a, b)` body. -/
def kpa_try_ab (c_clean p_clean : List Char) (a b : Int) (attempts : Nat) :
    List KPACandidate :=
  match affine_decrypt c_clean a b with
  | .error _ => []
  | .ok after_affine_full =>
    (kpa_start_positions c_clean p_clean).flatMap fun start_pos =>
      let affine_segment := (after_affine_full.drop start_pos).take p_clean.length
      let derived_key := kpa_derived_key affine_segment p_clean
      if derived_key = [] then []
      else
        (kpa_keylens derived_key).flatMap fun key_len =>
          let test_key := derived_key.take key_len
          match vigenere_decrypt after_affine_full test_key with
          | .error _ => []
          | .ok decrypted =>
            if decide (p_clean <:+: decrypted) then
              [⟨a, b, test_key, decrypted, calculate_english_score decrypted,
                start_pos, attempts⟩]
            else []

/-- The full `results` accumulation over the `(a, b)` grid, in loop order;
`attempts` is the running counter's value when the entry is appended. -/
def kpa_results (c_clean p_clean : List Char) : List KPACandidate :=
  valid_as.enum.flatMap fun ai_a =>
    (List.range 26).flatMap fun b =>
      kpa_try_ab c_clean p_clean ai_a.2 (b : Int) (ai_a.1 * 26 + b + 1)

/-- The `seen_keys` de-duplication loop (lines 154-161): keeps the first
occurrence of each `(affine_a, affine_b, vigenere_key)` triple. -/
def kpa_dedup (seen : List (Int × Int × List Char)) :
    List KPACandidate → List KPACandidate
  | [] => []
  | r :: rs =>
    if (r.affine_a, r.affine_b, r.vigenere_key) ∈ seen then kpa_dedup seen rs
    else r :: kpa_dedup ((r.affine_a, r.affine_b, r.vigenere_key) :: seen) rs

/-- Insertion step of the stable descending sort modelling Python's stable
`list.sort(key=score, reverse=True)`: an element walks past strictly
greater scores only, so equal scores keep their original order. -/
def kpa_insert_desc (r : KPACandidate) : List KPACandidate → List KPACandidate
  | [] => [r]
  | x :: xs =>
    if x.english_score > r.english_score then x :: kpa_insert_desc r xs
    else r :: x :: xs

/-- Stable sort by descending `english_score` (line 164). -/
def kpa_sort_desc : List KPACandidate → List KPACandidate
  | [] => []
  | x :: xs => kpa_insert_desc x (kpa_sort_desc xs)

/-- `known_plaintext_attack` from `attack_tools.py`. -/
def known_plaintext_attack (ciphertext known_plaintext : List Char) : KPAReport :=
  let c_clean := (ciphertext.filter Char.isAlpha).map Char.toUpper
  let p_clean := (known_plaintext.filter Char.isAlpha).map Char.toUpper
  if c_clean = [] ∨ p_clean = [] then .needAlpha
  else if p_clean.length < 4 then .tooShort
  else if p_clean.length > c_clean.length then .tooLong
  else
    let results := kpa_results c_clean p_clean
    let attempts := valid_as.length * 26
    if results = [] then .failed attempts
    else .success attempts (kpa_sort_desc (kpa_dedup [] results))

/-- One candidate of `break_combined_frequency`. -/
structure FreqCandidate where
  affine_a : Int
  affine_b : Int
  vigenere_key : List Char
  plaintext : List Char
  score : ℚ
deriving DecidableEq, Repr

/-- Outcomes of `break_combined_frequency` (again modulo the string
rendering, which also truncates the displayed list to `top_candidates`). -/
inductive FreqReport where
  | needAlpha
  | noResults
  | success (results : List FreqCandidate)
deriving DecidableEq, Repr

/-- Python slice `text[pos::keylen]` is `take_every keylen (text.drop pos)`. -/
def take_every (keylen : Nat) : List Char → List Char
  | [] => []
  | c :: rest => c :: take_every keylen (rest.drop (keylen - 1))
termination_by l => l.length
decreasing_by simp; omega

/-- Segment decryption with a single shift (lines 222-225);
`ALPHABET.index(c)` is applied to the raw character, no upper-casing. -/
def bvf_decrypt_segment (segment : List Char) (shift : Nat) : List Char :=
  segment.map fun c =>
    ALPHABET.getD (((ALPHABET.indexOf c : Int) - (shift : Int)) % 26).toNat 'A'

/-- The inner shift search (lines 217-231): starts from `('A', -1)` and
keeps the first shift attaining the best English score (strict `>`). -/
def bvf_best_shift (segment : List Char) : Char :=
  ((List.range 26).foldl
    (fun best shift =>
      let score := calculate_english_score (bvf_decrypt_segment segment shift)
      if score > best.2 then (ALPHABET.getD shift 'A', score) else best)
    ('A', -1)).1

/-- Key assembly for one assumed key length (lines 208-233); an empty
segment is skipped (`continue`). -/
def bvf_key_chars (text : List Char) (keylen : Nat) : List Char :=
  (List.range keylen).filterMap fun pos =>
    let segment := take_every keylen (text.drop pos)
    if segment = [] then none
    else some (bvf_best_shift segment)

/-- The candidate `break_vigenere_frequency` evaluates at one key length
(lines 235-237). -/
def bvf_candidate (text : List Char) (keylen : Nat) :
    Except CipherError (List Char × List Char × ℚ) :=
  let test_key := bvf_key_chars text keylen
  match vigenere_decrypt text test_key with
  | .error e => .error e
  | .ok test_plain => .ok (test_key, test_plain, calculate_english_score test_plain)

/-- The `for keylen in range(1, max_keylen + 1)` loop of
`break_vigenere_frequency` (lines 205-242): best-so-far state
`(best_key, best_plaintext, best_score)`, strict improvement only; an
exception (`Except.error`) anywhere aborts the whole call, as in Python. -/
def bvf_loop (text : List Char) : List Nat → (List Char × List Char × ℚ) →
    Except CipherError (List Char × List Char × ℚ)
  | [], best => .ok best
  | keylen :: rest, best =>
    match bvf_candidate text keylen with
    | .error e => .error e
    | .ok cand => bvf_loop text rest (if cand.2.2 > best.2.2 then cand else best)

/-- `break_vigenere_frequency` (lines 199-244): loop over key lengths
`1..max_keylen` starting from `("", "", -1)`. -/
def break_vigenere_frequency (text : List Char) (max_keylen : Nat) :
    Except CipherError (List Char × List Char × ℚ) :=
  bvf_loop text (List.range' 1 max_keylen) ([], [], -1)

/-- The `results` list of `break_combined_frequency` in grid order
(lines 251-269); a raising `(a, b)` body is skipped (`except: continue`). -/
def bcf_results (c_clean : List Char) (max_vig_keylen : Nat) : List FreqCandidate :=
  valid_as.flatMap fun a =>
    (List.range 26).flatMap fun b =>
      match affine_decrypt c_clean a (b : Int) with
      | .error _ => []
      | .ok after_affine =>
        match break_vigenere_frequency after_affine max_vig_keylen with
        | .error _ => []
        | .ok r => [⟨a, (b : Int), r.1, r.2.1, r.2.2⟩]

/-- Stable descending insertion for `FreqCandidate` (same sort model as
`kpa_insert_desc`). -/
def bcf_insert_desc (r : FreqCandidate) : List FreqCandidate → List FreqCandidate
  | [] => [r]
  | x :: xs => if x.score > r.score then x :: bcf_insert_desc r xs else r :: x :: xs

/-- Stable sort by descending `score` (line 275), modelling Python's stable
`list.sort(key=score, reverse=True)`. -/
def bcf_sort_desc : List FreqCandidate → List FreqCandidate
  | [] => []
  | x :: xs => bcf_insert_desc x (bcf_sort_desc xs)

/-- `break_combined_frequency` from `attack_tools.py` (Python default
`max_vig_keylen=15`; `top_candidates` only truncates the rendering). -/
def break_combined_frequency (ciphertext : List Char) (max_vig_keylen : Nat) :
    FreqReport :=
  let c_clean := (ciphertext.filter Char.isAlpha).map Char.toUpper
  if c_clean = [] then .needAlpha
  else
    let results := bcf_results c_clean max_vig_keylen
    if results = [] then .noResults
    else .success (bcf_sort_desc results)

/-- Modelled from the spec: §4.3's "small fixed set of common English
function words" — no such word list exists anywhere under `src/`
(`calculate_english_score` has no word term), so the set follows the
spec's words; any set of common English function words contains "THE". -/
def COMMON_WORDS : List (List Char) :=
  [['T','H','E'], ['A','N','D'], ['O','F'], ['T','O'], ['I','N'],
   ['I','S'], ['I','T'], ['A']]

/-- Modelled from the spec: whitespace-delimited tokens of a text (runs of
whitespace separate tokens, empty tokens discarded, as Python `split()`). -/
def whitespace_tokens (text : List Char) : List (List Char) :=
  (text.splitOnP (fun c => c.isWhitespace)).filter (fun t => t ≠ [])

/-- Modelled from the spec: the English-likeness score §4.3 describes — the
per-letter frequency-closeness term plus 10 points for every
whitespace-delimited token matching the common-word set. -/
def spec_english_score (text : List Char) : ℚ :=
  calculate_english_score text +
    10 * (((whitespace_tokens (text.map Char.toUpper)).filter
      (fun t => COMMON_WORDS.contains t)).length : ℚ)

deriving instance DecidableEq for Except

/-! ## Character-level facts -/

theorem mem_ALPHABET_of_bounds {c : Char} (h1 : 65 ≤ c.toNat) (h2 : c.toNat ≤ 90) :
    c ∈ ALPHABET := by
  have e : c = Char.ofNat c.toNat := (Char.ofNat_toNat c).symm
  interval_cases h : c.toNat <;> (subst e; decide)

theorem mem_LOWERS_of_bounds {c : Char} (h1 : 97 ≤ c.toNat) (h2 : c.toNat ≤ 122) :
    c ∈ LOWERS := by
  have e : c = Char.ofNat c.toNat := (Char.ofNat_toNat c).symm
  interval_cases h : c.toNat <;> (subst e; decide)

theorem toUpper_eq_of_not_lower {c : Char} (h : c.isLower = false) : c.toUpper = c := by
  have hb : ¬(97 ≤ c.toNat ∧ c.toNat ≤ 122) := by
    intro hc
    have hl : c.isLower = true := by
      simp [Char.isLower]
      exact hc
    rw [hl] at h
    cases h
  unfold Char.toUpper
  rw [if_neg]
  intro hc
  exact hb ⟨hc.1, hc.2⟩

theorem isAlpha_toUpper (c : Char) : c.toUpper.isAlpha = c.isAlpha := by
  by_cases hl : c.isLower = true
  · obtain ⟨h1, h2⟩ : 97 ≤ c.toNat ∧ c.toNat ≤ 122 := by
      simpa [Char.isLower] using hl
    have := mem_LOWERS_of_bounds h1 h2
    fin_cases this <;> decide
  · rw [toUpper_eq_of_not_lower (Bool.not_eq_true _ |>.mp hl)]

theorem toUpper_mem_ALPHABET {c : Char} (h : c.isAlpha = true) : c.toUpper ∈ ALPHABET := by
  by_cases hl : c.isLower = true
  · obtain ⟨h1, h2⟩ : 97 ≤ c.toNat ∧ c.toNat ≤ 122 := by
      simpa [Char.isLower] using hl
    have := mem_LOWERS_of_bounds h1 h2
    fin_cases this <;> decide
  · have hu : c.isUpper = true := by
      unfold Char.isAlpha at h
      rcases Bool.or_eq_true_iff.mp h with h' | h'
      · exact h'
      · exact absurd h' hl
    rw [toUpper_eq_of_not_lower (Bool.not_eq_true _ |>.mp hl)]
    obtain ⟨h1, h2⟩ : 65 ≤ c.toNat ∧ c.toNat ≤ 90 := by
      simpa [Char.isUpper] using hu
    exact mem_ALPHABET_of_bounds h1 h2

theorem mem_ALPHABET_isAlpha {c : Char} (h : c ∈ ALPHABET) : c.isAlpha = true := by
  fin_cases h <;> decide

theorem mem_ALPHABET_toUpper_self {c : Char} (h : c ∈ ALPHABET) : c.toUpper = c := by
  fin_cases h <;> decide

theorem indexOf_lt_26 {c : Char} (h : c ∈ ALPHABET) : ALPHABET.indexOf c < 26 := by
  fin_cases h <;> decide

theorem getD_indexOf {c : Char} (h : c ∈ ALPHABET) :
    ALPHABET.getD (ALPHABET.indexOf c) 'A' = c := by
  fin_cases h <;> decide

theorem getD_mem_ALPHABET {n : Nat} (h : n < 26) : ALPHABET.getD n 'A' ∈ ALPHABET := by
  interval_cases n <;> decide

theorem indexOf_getD {n : Nat} (h : n < 26) :
    ALPHABET.indexOf (ALPHABET.getD n 'A') = n := by
  interval_cases n <;> decide

/-! ## Modular-inverse search (claim C6) -/

theorem find?_range'_first {p : Nat → Bool} {s n x : Nat}
    (h : (List.range' s n).find? p = some x) :
    p x = true ∧ s ≤ x ∧ x < s + n ∧ ∀ y, s ≤ y → y < x → p y = false := by
  simp at h
  exact ⟨h.1, h.2.1.1, h.2.1.2, h.2.2⟩

theorem emod_mul_emod (a x : Int) : (a % 26 * x) % 26 = (a * x) % 26 := by
  rw [Int.mul_emod, Int.emod_emod_of_dvd a dvd_rfl, ← Int.mul_emod]

theorem mod_inverse_some {a x : Int} (h : mod_inverse a 26 = some x) :
    1 ≤ x ∧ x < 26 ∧ (a * x) % 26 = 1 ∧
      ∀ y : Int, 1 ≤ y → y < x → (a * y) % 26 ≠ 1 := by
  unfold mod_inverse at h
  rw [List.find?_map] at h
  cases hf : (List.range' 1 (26 - 1 : Int).toNat).find?
      ((fun x : Int => (a % 26 * x) % 26 == 1) ∘ fun x : Nat => (x : Int)) with
  | none => rw [hf] at h; simp at h
  | some xn =>
    rw [hf] at h
    simp at h
    obtain rfl : (xn : Int) = x := by simpa using h
    obtain ⟨h1, h2, h3, h4⟩ := find?_range'_first hf
    simp only [Function.comp, beq_iff_eq] at h1
    rw [emod_mul_emod] at h1
    have hxn26 : xn < 26 := by
      have : (26 - 1 : Int).toNat = 25 := rfl
      omega
    refine ⟨by exact_mod_cast h2, by exact_mod_cast hxn26, h1, ?_⟩
    intro y hy1 hy2
    have hy1n : 1 ≤ y.toNat := by omega
    have hy2n : y.toNat < xn := by omega
    have hy := h4 y.toNat hy1n hy2n
    simp only [Function.comp, beq_eq_false_iff_ne] at hy
    intro hc
    apply hy
    rw [emod_mul_emod]
    rw [show ((y.toNat : Nat) : Int) = y by omega]
    exact hc

theorem mod_inverse_none_iff {a : Int} :
    mod_inverse a 26 = none ↔
      ∀ x : Int, 1 ≤ x → x < 26 → (a * x) % 26 ≠ 1 := by
  unfold mod_inverse
  rw [List.find?_map, Option.map_eq_none', List.find?_eq_none]
  constructor
  · intro h x hx1 hx2
    have hx : x.toNat ∈ List.range' 1 (26 - 1 : Int).toNat := by
      have : (26 - 1 : Int).toNat = 25 := rfl
      rw [this, List.mem_range'_1]
      omega
    have hh := h _ hx
    simp only [Function.comp, Bool.not_eq_true, beq_eq_false_iff_ne] at hh
    intro hc
    apply hh
    rw [emod_mul_emod]
    rw [show ((x.toNat : Nat) : Int) = x by omega]
    exact hc
  · intro h t ht
    have ht' : 1 ≤ t ∧ t < 26 := by
      have : (26 - 1 : Int).toNat = 25 := rfl
      rw [this, List.mem_range'_1] at ht
      omega
    simp only [Function.comp, Bool.not_eq_true, beq_eq_false_iff_ne]
    intro hc
    rw [emod_mul_emod] at hc
    exact h t (by exact_mod_cast ht'.1) (by exact_mod_cast ht'.2) hc

theorem int_gcd_emod_26 (a : Int) : Int.gcd (a % 26) 26 = Int.gcd a 26 := by
  apply Nat.dvd_antisymm
  · rw [← Int.natCast_dvd_natCast]
    apply Int.dvd_gcd
    · conv_rhs => rw [show a = a % 26 + 26 * (a / 26) by rw [Int.emod_def]; ring]
      exact dvd_add Int.gcd_dvd_left (Dvd.dvd.mul_right Int.gcd_dvd_right _)
    · exact Int.gcd_dvd_right
  · rw [← Int.natCast_dvd_natCast]
    apply Int.dvd_gcd
    · rw [Int.emod_def]
      exact dvd_sub Int.gcd_dvd_left (Dvd.dvd.mul_right Int.gcd_dvd_right _)
    · exact Int.gcd_dvd_right

theorem mod_inverse_emod (a : Int) : mod_inverse a 26 = mod_inverse (a % 26) 26 := by
  unfold mod_inverse
  rw [Int.emod_emod_of_dvd a dvd_rfl]

theorem mod_inverse_none_iff_gcd {a : Int} :
    mod_inverse a 26 = none ↔ Int.gcd a 26 ≠ 1 := by
  have hres : ∀ n ∈ List.range 26,
      ((mod_inverse (n : Int) 26 = none) ↔ Int.gcd (n : Int) 26 ≠ 1) := by decide
  have hnn : 0 ≤ a % 26 := Int.emod_nonneg a (by norm_num)
  have hlt : a % 26 < 26 := Int.emod_lt_of_pos a (by norm_num)
  have hmem : (a % 26).toNat ∈ List.range 26 := by
    rw [List.mem_range]
    omega
  have hcast : (((a % 26).toNat : Nat) : Int) = a % 26 := by omega
  rw [mod_inverse_emod, ← int_gcd_emod_26, ← hcast]
  exact hres _ hmem

/-- C6: for every integer `a`, `mod_inverse(a, 26)` returns the smallest
`x` in `[1, 26)` with `(a·x) mod 26 = 1`; it returns `None` exactly when no
such `x` exists, equivalently when `gcd(a, 26) ≠ 1`; in particular every
`a` in `valid_as` has `(a * mod_inverse(a)) mod 26 = 1`, and every
non-coprime `a` in `[2, 26]` yields `None`. -/
theorem C6_mod_inverse_correct :
    (∀ a x : Int, mod_inverse a 26 = some x →
        1 ≤ x ∧ x < 26 ∧ (a * x) % 26 = 1 ∧
        ∀ y : Int, 1 ≤ y → y < x → (a * y) % 26 ≠ 1) ∧
    (∀ a : Int, mod_inverse a 26 = none ↔
        ¬∃ x : Int, 1 ≤ x ∧ x < 26 ∧ (a * x) % 26 = 1) ∧
    (∀ a : Int, mod_inverse a 26 = none ↔ Int.gcd a 26 ≠ 1) ∧
    (∀ a ∈ valid_as, (mod_inverse a 26).isSome = true ∧
        (a * ((mod_inverse a 26).getD 0)) % 26 = 1) ∧
    (∀ a : Int, 2 ≤ a → a ≤ 26 → Int.gcd a 26 ≠ 1 → mod_inverse a 26 = none) := by
  refine ⟨fun a x h => mod_inverse_some h, fun a => ?_, fun a => mod_inverse_none_iff_gcd,
    by decide, fun a h2 h26 hg => mod_inverse_none_iff_gcd.mpr hg⟩
  rw [mod_inverse_none_iff]
  constructor
  · intro h ⟨x, hx1, hx2, hx3⟩
    exact h x hx1 hx2 hx3
  · intro h x hx1 hx2 hx3
    exact h ⟨x, hx1, hx2, hx3⟩

/-- Witness for C6 at concrete inputs: the inverse of 3 is 9, and 2 (not
coprime with 26) has none. -/
theorem C6_mod_inverse_correct_witness :
    ((3 : Int) * 9) % 26 = 1 ∧ mod_inverse 2 26 = none :=
  ⟨(C6_mod_inverse_correct.1 3 9 (by decide)).2.2.1,
   C6_mod_inverse_correct.2.2.2.2 2 (by decide) (by decide) (by decide)⟩

/-! ## Error cases (claim C7) and score bounds (claim C10) -/

theorem vigenere_key_letters_eq_nil {key : List Char}
    (h : ∀ c ∈ key, c.isAlpha = false) : vigenere_key_letters key = [] := by
  unfold vigenere_key_letters
  rw [List.filter_eq_nil]
  intro a ha
  rw [List.mem_map] at ha
  obtain ⟨c, hc, rfl⟩ := ha
  rw [isAlpha_toUpper, h c hc]
  simp

theorem combined_encrypt_keyError {plaintext key : List Char} {keep : Bool}
    (h : ∀ c ∈ key, c.isAlpha = false) :
    combined_encrypt plaintext key keep = .error .keyError := by
  have hk := vigenere_key_letters_eq_nil h
  simp [combined_encrypt, vigenere_encrypt, hk]

theorem affine_decrypt_paramError (ciphertext : List Char) (b : Int) :
    affine_decrypt ciphertext 2 b = .error .paramError := by
  have : mod_inverse 2 26 = none := rfl
  simp [affine_decrypt, this]

theorem kpa_tooShort {ciphertext known : List Char}
    (hc : ciphertext.filter Char.isAlpha ≠ [])
    (hk : known.filter Char.isAlpha ≠ [])
    (hlen : (known.filter Char.isAlpha).length < 4) :
    known_plaintext_attack ciphertext known = .tooShort := by
  unfold known_plaintext_attack
  rw [if_neg, if_pos]
  · rw [List.length_map]
    exact hlen
  · rw [not_or]
    constructor
    · simpa [List.map_eq_nil, List.filter_eq_nil] using hc
    · simpa [List.map_eq_nil, List.filter_eq_nil] using hk

theorem foldl_add_bounded {α : Type} (t : α → ℚ) (h0 : ∀ a, 0 ≤ t a) (h10 : ∀ a, t a ≤ 10)
    (l : List α) (init : ℚ) :
    init ≤ l.foldl (fun s a => s + t a) init ∧
      l.foldl (fun s a => s + t a) init ≤ init + 10 * l.length := by
  induction l generalizing init with
  | nil => simp
  | cons a l ih =>
    simp only [List.foldl_cons, List.length_cons]
    obtain ⟨ih1, ih2⟩ := ih (init + t a)
    constructor
    · calc init ≤ init + t a := by linarith [h0 a]
        _ ≤ _ := ih1
    · calc l.foldl (fun s a => s + t a) (init + t a) ≤ init + t a + 10 * l.length := ih2
        _ ≤ init + 10 * (l.length + 1) := by linarith [h10 a]
        _ = init + 10 * ((l.length + 1 : Nat) : ℚ) := by push_cast; ring

theorem calculate_english_score_eq (text : List Char) :
    calculate_english_score text =
      if text = [] then 0
      else if ((text.map Char.toUpper).filter (fun ch => ALPHABET.contains ch)).length = 0
        then 0
      else
        ENGLISH_FREQ.foldl
          (fun score lf =>
            score + max 0 (10 -
              |(((text.map Char.toUpper).count lf.1 : ℚ) /
                ((((text.map Char.toUpper).filter
                    (fun ch => ALPHABET.contains ch)).length : Nat) : ℚ)) * 100 - lf.2|))
          0 := rfl

theorem calculate_english_score_bounds (text : List Char) :
    0 ≤ calculate_english_score text ∧ calculate_english_score text ≤ 260 := by
  rw [calculate_english_score_eq]
  by_cases h1 : text = []
  · simp [h1]
  · rw [if_neg h1]
    by_cases h2 : ((text.map Char.toUpper).filter (fun ch => ALPHABET.contains ch)).length = 0
    · rw [if_pos h2]
      norm_num
    · rw [if_neg h2]
      have hb := foldl_add_bounded
        (fun lf : Char × ℚ => max 0 (10 -
          |(((text.map Char.toUpper).count lf.1 : ℚ) /
            ((((text.map Char.toUpper).filter
                (fun ch => ALPHABET.contains ch)).length : Nat) : ℚ)) * 100 - lf.2|))
        (fun a => le_max_left _ _)
        (fun a => max_le (by norm_num)
          (by linarith [abs_nonneg ((((text.map Char.toUpper).count a.1 : ℚ) /
            ((((text.map Char.toUpper).filter
                (fun ch => ALPHABET.contains ch)).length : Nat) : ℚ)) * 100 - a.2)]))
        ENGLISH_FREQ 0
      refine ⟨hb.1, le_trans hb.2 ?_⟩
      norm_num [ENGLISH_FREQ]

theorem total_chars_eq_zero {text : List Char} (h : ∀ c ∈ text, c.isAlpha = false) :
    ((text.map Char.toUpper).filter (fun ch => ALPHABET.contains ch)).length = 0 := by
  rw [List.length_eq_zero, List.filter_eq_nil]
  intro a ha
  rw [List.mem_map] at ha
  obtain ⟨c, hc, rfl⟩ := ha
  intro hcont
  simp at hcont
  have := mem_ALPHABET_isAlpha hcont
  rw [isAlpha_toUpper, h c hc] at this
  cases this

theorem calculate_english_score_no_alpha {text : List Char}
    (h : ∀ c ∈ text, c.isAlpha = false) : calculate_english_score text = 0 := by
  rw [calculate_english_score_eq]
  by_cases h1 : text = []
  · simp [h1]
  · rw [if_neg h1, if_pos (total_chars_eq_zero h)]

/-- C7: the specified error cases fail as stated: two-stage encryption with
a letterless key fails with the key error, affine decryption with `a = 2`
fails with the parameter error, and the known-plaintext attack with a
cleaned fragment of fewer than 4 letters returns the too-short report. -/
theorem C7_error_cases :
    (∀ (plaintext key : List Char) (keep : Bool),
        (∀ c ∈ key, c.isAlpha = false) →
        combined_encrypt plaintext key keep = .error .keyError) ∧
    (∀ (ciphertext : List Char) (b : Int),
        affine_decrypt ciphertext 2 b = .error .paramError) ∧
    (∀ ciphertext known : List Char,
        ciphertext.filter Char.isAlpha ≠ [] →
        known.filter Char.isAlpha ≠ [] →
        (known.filter Char.isAlpha).length < 4 →
        known_plaintext_attack ciphertext known = .tooShort) :=
  ⟨fun _ _ _ h => combined_encrypt_keyError h,
   fun c b => affine_decrypt_paramError c b,
   fun _ _ hc hk hlen => kpa_tooShort hc hk hlen⟩

/-- Witness for C7 at the spec's example inputs: key `"12345"`, affine
`a = 2`, fragment `"AB"`. -/
theorem C7_error_cases_witness :
    combined_encrypt ['H','I'] ['1','2','3','4','5'] false = .error .keyError ∧
    affine_decrypt ['H','I'] 2 0 = .error .paramError ∧
    known_plaintext_attack ['A','B','C','D'] ['A','B'] = .tooShort :=
  ⟨C7_error_cases.1 ['H','I'] ['1','2','3','4','5'] false (by decide),
   C7_error_cases.2.1 ['H','I'] 0,
   C7_error_cases.2.2 ['A','B','C','D'] ['A','B'] (by decide) (by decide) (by decide)⟩

/-- C10: for every input string the English-likeness score lies in
`[0, 260]` (26 terms each clamped to `[0, 10]`, no word bonus), and it is
exactly 0 — rather than failing — when the input is empty or contains no
alphabetic characters. -/
theorem C10_score_bounds :
    ∀ text : List Char,
      (0 ≤ calculate_english_score text ∧ calculate_english_score text ≤ 260) ∧
      calculate_english_score [] = 0 ∧
      ((∀ c ∈ text, c.isAlpha = false) → calculate_english_score text = 0) :=
  fun text =>
    ⟨calculate_english_score_bounds text, rfl,
     fun h => calculate_english_score_no_alpha h⟩

/-- Witness for C10 on a letterless input. -/
theorem C10_score_bounds_witness :
    (0 ≤ calculate_english_score ['1','2'] ∧ calculate_english_score ['1','2'] ≤ 260) ∧
    calculate_english_score ['1','2'] = 0 :=
  ⟨(C10_score_bounds ['1','2']).1, (C10_score_bounds ['1','2']).2.2 (by decide)⟩

/-! ## Key normalisation (claim C8) -/

example : combined_encrypt ['A'] ['k','e','y'] false = .ok ['P'] := by decide
example : combined_encrypt ['A'] ['K','E','Y'] false = .ok ['X'] := by decide

theorem filter_isAlpha_map_toUpper (l : List Char) :
    (l.map Char.toUpper).filter Char.isAlpha = (l.filter Char.isAlpha).map Char.toUpper := by
  induction l with
  | nil => rfl
  | cons c l ih =>
    simp only [List.map_cons, List.filter_cons, isAlpha_toUpper]
    cases h : c.isAlpha with
    | false => simpa [h] using ih
    | true => simpa [h] using ih

theorem vigenere_key_letters_eq_clean (key : List Char) :
    vigenere_key_letters key = clean_text key false := by
  unfold vigenere_key_letters clean_text
  rw [if_neg (by simp)]
  exact filter_isAlpha_map_toUpper key

theorem C8_key_normalization (plaintext k1 k2 : List Char) (keep : Bool)
    (hnorm : clean_text k1 false = clean_text k2 false)
    (hsum : ((k1.map Char.toNat).sum : Int) % 26 = ((k2.map Char.toNat).sum : Int) % 26) :
    combined_encrypt plaintext k1 keep = combined_encrypt plaintext k2 keep := by
  have hkl : vigenere_key_letters k1 = vigenere_key_letters k2 := by
    rw [vigenere_key_letters_eq_clean, vigenere_key_letters_eq_clean, hnorm]
  simp only [combined_encrypt, vigenere_encrypt, derive_affine_params_from_key, hkl, hsum]

theorem C8_counterexample :
    clean_text ['k','e','y'] false = clean_text ['K','E','Y'] false ∧
    combined_encrypt ['A'] ['k','e','y'] false ≠ combined_encrypt ['A'] ['K','E','Y'] false := by
  constructor
  · rfl
  · decide

theorem C8_key_normalization_witness :
    combined_encrypt ['A'] ['K','E','Y'] false = combined_encrypt ['A'] ['K','E','Y','4','4'] false :=
  C8_key_normalization ['A'] ['K','E','Y'] ['K','E','Y','4','4'] false (by decide) (by decide)

-- Sanity checks against the spec's example vectors (§8):
-- affineEncrypt("HELLO", a=5, b=8) == "RCLLA", and mod_inverse(5) = 21.
example : affine_encrypt ['H','E','L','L','O'] 5 8 = ['R','C','L','L','A'] := by decide
example : mod_inverse 5 26 = some 21 := by decide
example : vigenere_encrypt ['H','E','L','L','O'] ['K','E','Y'] =
    .ok ['R','I','J','V','S'] := rfl

/-! ## Known-plaintext attack structure (claims C9, C2, C4) -/

theorem kpa_keylens_nil {dk : List Char} (h : dk.length ≤ 9) : kpa_keylens dk = [] := by
  unfold kpa_keylens
  have : min 20 (dk.length + 1) - 10 = 0 := by omega
  rw [this]
  rfl

theorem kpa_try_ab_nil {c_clean p_clean : List Char} (h9 : p_clean.length ≤ 9)
    (a b : Int) (att : Nat) : kpa_try_ab c_clean p_clean a b att = [] := by
  unfold kpa_try_ab
  cases haff : affine_decrypt c_clean a b with
  | error e => rfl
  | ok full =>
    rw [List.bind_eq_nil]
    intro s hs
    have hdk : (kpa_derived_key ((full.drop s).take p_clean.length) p_clean).length ≤ 9 := by
      unfold kpa_derived_key
      rw [List.length_zipWith]
      omega
    by_cases hnil : kpa_derived_key ((full.drop s).take p_clean.length) p_clean = []
    · rw [if_pos hnil]
    · rw [if_neg hnil, kpa_keylens_nil hdk]
      rfl

theorem kpa_results_nil {c_clean p_clean : List Char} (h9 : p_clean.length ≤ 9) :
    kpa_results c_clean p_clean = [] := by
  unfold kpa_results
  rw [List.bind_eq_nil]
  intro ia _
  rw [List.bind_eq_nil]
  intro b _
  exact kpa_try_ab_nil h9 _ _ _

theorem known_plaintext_attack_eq (ciphertext known_plaintext : List Char) :
    known_plaintext_attack ciphertext known_plaintext =
      (if (ciphertext.filter Char.isAlpha).map Char.toUpper = [] ∨
          (known_plaintext.filter Char.isAlpha).map Char.toUpper = [] then .needAlpha
      else if ((known_plaintext.filter Char.isAlpha).map Char.toUpper).length < 4 then
        .tooShort
      else if ((known_plaintext.filter Char.isAlpha).map Char.toUpper).length >
          ((ciphertext.filter Char.isAlpha).map Char.toUpper).length then .tooLong
      else if kpa_results ((ciphertext.filter Char.isAlpha).map Char.toUpper)
          ((known_plaintext.filter Char.isAlpha).map Char.toUpper) = [] then
        .failed (valid_as.length * 26)
      else
        .success (valid_as.length * 26)
          (kpa_sort_desc (kpa_dedup []
            (kpa_results ((ciphertext.filter Char.isAlpha).map Char.toUpper)
              ((known_plaintext.filter Char.isAlpha).map Char.toUpper))))) := rfl

theorem kpa_short_fragment_fails {ciphertext known : List Char}
    (hc : ciphertext.filter Char.isAlpha ≠ [])
    (hk4 : 4 ≤ (known.filter Char.isAlpha).length)
    (hk9 : (known.filter Char.isAlpha).length ≤ 9)
    (hlen : (known.filter Char.isAlpha).length ≤ (ciphertext.filter Char.isAlpha).length) :
    known_plaintext_attack ciphertext known = .failed 312 := by
  have h1 : ¬((ciphertext.filter Char.isAlpha).map Char.toUpper = [] ∨
      (known.filter Char.isAlpha).map Char.toUpper = []) := by
    rw [not_or, List.map_eq_nil, List.map_eq_nil]
    refine ⟨hc, ?_⟩
    intro h
    rw [h] at hk4
    simp at hk4
  have h2 : ¬(((known.filter Char.isAlpha).map Char.toUpper).length < 4) := by
    rw [List.length_map]
    omega
  have h3 : ¬(((known.filter Char.isAlpha).map Char.toUpper).length >
      ((ciphertext.filter Char.isAlpha).map Char.toUpper).length) := by
    rw [List.length_map, List.length_map]
    omega
  have h4 : kpa_results ((ciphertext.filter Char.isAlpha).map Char.toUpper)
      ((known.filter Char.isAlpha).map Char.toUpper) = [] := by
    apply kpa_results_nil
    rw [List.length_map]
    exact hk9
  rw [known_plaintext_attack_eq, if_neg h1, if_neg h2, if_neg h3, if_pos h4]
  rfl

theorem mem_kpa_insert_desc {x r : KPACandidate} {l : List KPACandidate} :
    x ∈ kpa_insert_desc r l ↔ x = r ∨ x ∈ l := by
  induction l with
  | nil => simp [kpa_insert_desc]
  | cons y ys ih =>
    unfold kpa_insert_desc
    by_cases h : y.english_score > r.english_score
    · rw [if_pos h, List.mem_cons, ih, List.mem_cons]
      tauto
    · rw [if_neg h, List.mem_cons, List.mem_cons]

theorem mem_kpa_sort_desc {x : KPACandidate} {l : List KPACandidate} :
    x ∈ kpa_sort_desc l ↔ x ∈ l := by
  induction l with
  | nil => simp [kpa_sort_desc]
  | cons y ys ih =>
    unfold kpa_sort_desc
    rw [mem_kpa_insert_desc]
    simp [ih]

theorem mem_kpa_dedup {x : KPACandidate} {seen : List (Int × Int × List Char)}
    {l : List KPACandidate} (h : x ∈ kpa_dedup seen l) : x ∈ l := by
  induction l generalizing seen with
  | nil => simpa [kpa_dedup] using h
  | cons y ys ih =>
    unfold kpa_dedup at h
    by_cases hs : (y.affine_a, y.affine_b, y.vigenere_key) ∈ seen
    · rw [if_pos hs] at h
      exact List.mem_cons_of_mem _ (ih h)
    · rw [if_neg hs] at h
      rcases List.mem_cons.mp h with rfl | h'
      · exact List.mem_cons_self _ _
      · exact List.mem_cons_of_mem _ (ih h')

theorem kpa_results_position {c_clean p_clean : List Char} {r : KPACandidate}
    (h : r ∈ kpa_results c_clean p_clean) :
    r.position ∈ kpa_start_positions c_clean p_clean := by
  unfold kpa_results at h
  rw [List.mem_bind] at h
  obtain ⟨ia, _, h⟩ := h
  rw [List.mem_bind] at h
  obtain ⟨b, _, h⟩ := h
  unfold kpa_try_ab at h
  cases haff : affine_decrypt c_clean ia.2 (b : Int) with
  | error e => rw [haff] at h; simp at h
  | ok full =>
    rw [haff] at h
    rw [List.mem_bind] at h
    obtain ⟨s, hs, h⟩ := h
    by_cases hdk : kpa_derived_key ((full.drop s).take p_clean.length) p_clean = []
    · rw [if_pos hdk] at h
      simp at h
    · rw [if_neg hdk] at h
      rw [List.mem_bind] at h
      obtain ⟨kl, _, h⟩ := h
      dsimp only [] at h
      cases hv : vigenere_decrypt full
          ((kpa_derived_key ((full.drop s).take p_clean.length) p_clean).take kl) with
      | error e => rw [hv] at h; simp at h
      | ok dec =>
        rw [hv] at h
        dsimp only [] at h
        by_cases hinf : decide (p_clean <:+: dec) = true
        · rw [if_pos hinf] at h
          rw [List.mem_singleton] at h
          subst h
          exact hs
        · rw [if_neg hinf] at h
          simp at h

/-- C9: whenever the cleaned known-plaintext fragment has between 4 and 9
letters (and fits in the cleaned ciphertext), `known_plaintext_attack`
generates zero candidates and returns the failure report after all 312
attempts: the tested key lengths `range(10, min(20, len+1))` form an empty
range for fragments shorter than 10 letters. -/
theorem C9_short_fragment_no_candidates :
    ∀ ciphertext known : List Char,
      ciphertext.filter Char.isAlpha ≠ [] →
      4 ≤ (known.filter Char.isAlpha).length →
      (known.filter Char.isAlpha).length ≤ 9 →
      (known.filter Char.isAlpha).length ≤ (ciphertext.filter Char.isAlpha).length →
      kpa_results ((ciphertext.filter Char.isAlpha).map Char.toUpper)
          ((known.filter Char.isAlpha).map Char.toUpper) = [] ∧
      known_plaintext_attack ciphertext known = .failed 312 := by
  intro c k hc h4 h9 hlen
  refine ⟨kpa_results_nil ?_, kpa_short_fragment_fails hc h4 h9 hlen⟩
  rw [List.length_map]
  exact h9

/-- Witness for C9: a 10-letter ciphertext with a 4-letter fragment fails. -/
theorem C9_short_fragment_no_candidates_witness :
    known_plaintext_attack ['A','B','C','D','E','F','G','H','I','J']
      ['T','E','S','T'] = .failed 312 :=
  (C9_short_fragment_no_candidates ['A','B','C','D','E','F','G','H','I','J']
    ['T','E','S','T'] (by decide) (by decide) (by decide) (by decide)).2

/-- C2 (code bug): encrypting `"THISISASECRETMESSAGE"` with key `"KEY"` and
attacking the ciphertext with the known fragment `"SECRET"` yields the
failure report, not a successful candidate: the fragment has 6 letters, so
the tested key-length range `range(10, min(20, 7))` is empty and no
candidate can ever be produced. -/
theorem C2_secret_attack_fails :
    (combined_encrypt
        ['T','H','I','S','I','S','A','S','E','C','R','E','T','M','E','S','S','A','G','E']
        ['K','E','Y'] false).map
      (fun c => known_plaintext_attack c ['S','E','C','R','E','T']) =
    .ok (.failed 312) := by
  have hct : combined_encrypt
      ['T','H','I','S','I','S','A','S','E','C','R','E','T','M','E','S','S','A','G','E']
      ['K','E','Y'] false =
      .ok ['O','C','D','J','H','B','X','F','J','H','A','J','O','B','J','J','F','P','B','N'] := by
    decide
  rw [hct]
  have hfail := @kpa_short_fragment_fails
    ['O','C','D','J','H','B','X','F','J','H','A','J','O','B','J','J','F','P','B','N']
    ['S','E','C','R','E','T']
    (by decide) (by decide) (by decide) (by decide)
  simp [Except.map, hfail]

/-- C4 counterexample: for a 10-letter cleaned ciphertext and a 4-letter
fragment, the claim requires every start position 0..6 to be scanned, but
the scanned set is `range(min(5, 7)) = {0,...,4}`: position 5 is a valid
alignment (5 + 4 ≤ 10) yet is never used. -/
theorem C4_counterexample :
    kpa_start_positions ['A','B','C','D','E','F','G','H','I','J'] ['T','E','S','T'] ≠
      List.range (['A','B','C','D','E','F','G','H','I','J'].length -
        ['T','E','S','T'].length + 1) ∧
    5 ∉ kpa_start_positions ['A','B','C','D','E','F','G','H','I','J'] ['T','E','S','T'] ∧
    5 + ['T','E','S','T'].length ≤ ['A','B','C','D','E','F','G','H','I','J'].length := by
  decide

/-- C4 amended: the attack scans exactly the alignment offsets
`0 ≤ s < min 5 (len(cipher) − len(fragment) + 1)` — capped at the first
five — and every candidate it generates carries one of those offsets. -/
theorem C4_start_positions_capped :
    ∀ c_clean p_clean : List Char,
      (∀ s : Nat, s ∈ kpa_start_positions c_clean p_clean ↔
          s < min 5 (c_clean.length - p_clean.length + 1)) ∧
      ∀ r ∈ kpa_results c_clean p_clean,
        r.position < 5 ∧ r.position < c_clean.length - p_clean.length + 1 := by
  intro c p
  constructor
  · intro s
    unfold kpa_start_positions
    rw [List.mem_range]
  · intro r hr
    have h := kpa_results_position hr
    unfold kpa_start_positions at h
    rw [List.mem_range] at h
    omega

/-- Witness for C4 amended at concrete inputs. -/
theorem C4_start_positions_capped_witness :
    (3 ∈ kpa_start_positions ['A','B','C','D','E','F','G','H','I','J'] ['T','E','S','T'] ↔
      3 < min 5 (['A','B','C','D','E','F','G','H','I','J'].length -
        ['T','E','S','T'].length + 1)) :=
  (C4_start_positions_capped ['A','B','C','D','E','F','G','H','I','J']
    ['T','E','S','T']).1 3

theorem foldl_add_eq_sum {α : Type} (f : α → ℚ) (l : List α) (init : ℚ) :
    l.foldl (fun s a => s + f a) init = init + (l.map f).sum := by
  induction l generalizing init with
  | nil => simp
  | cons a l ih =>
    simp only [List.foldl_cons, List.map_cons, List.sum_cons, ih (init + f a)]
    ring

/-- C3 counterexample: on the text "THE THE" the claimed formula includes a
20-point common-word bonus, but `calculate_english_score` has no word-bonus
term at all, so the two values differ. -/
theorem C3_counterexample :
    spec_english_score ['T','H','E',' ','T','H','E'] ≠
      calculate_english_score ['T','H','E',' ','T','H','E'] := by
  unfold spec_english_score
  have h2 : ((whitespace_tokens (['T','H','E',' ','T','H','E'].map Char.toUpper)).filter
      (fun t => COMMON_WORDS.contains t)).length = 2 := by decide
  rw [h2]
  intro h
  push_cast at h
  linarith

/-- C3 amended: `calculate_english_score` equals exactly the per-letter
frequency term — the sum over the 26 reference letters of
`max(0, 10 − |observedPercent − referencePercent|)` — with no common-word
bonus, and is 0 on texts with no letters. -/
theorem C3_score_is_frequency_term_only :
    ∀ text : List Char,
      (((text.map Char.toUpper).filter (fun ch => ALPHABET.contains ch)).length ≠ 0 →
        calculate_english_score text =
          (ENGLISH_FREQ.map (fun lf =>
            max 0 (10 - |(((text.map Char.toUpper).count lf.1 : ℚ) /
              ((((text.map Char.toUpper).filter
                  (fun ch => ALPHABET.contains ch)).length : Nat) : ℚ)) * 100 - lf.2|))).sum) ∧
      (((text.map Char.toUpper).filter (fun ch => ALPHABET.contains ch)).length = 0 →
        calculate_english_score text = 0) := by
  intro text
  constructor
  · intro h
    have htext : text ≠ [] := by
      intro he
      subst he
      simp at h
    rw [calculate_english_score_eq, if_neg htext, if_neg h, foldl_add_eq_sum]
    ring
  · intro h
    rw [calculate_english_score_eq]
    by_cases he : text = []
    · rw [if_pos he]
    · rw [if_neg he, if_pos h]

/-- Witness for C3 amended at the text "THE". -/
theorem C3_score_is_frequency_term_only_witness :
    calculate_english_score ['T','H','E'] =
      (ENGLISH_FREQ.map (fun lf =>
        max 0 (10 - |(((['T','H','E'].map Char.toUpper).count lf.1 : ℚ) /
          ((((['T','H','E'].map Char.toUpper).filter
              (fun ch => ALPHABET.contains ch)).length : Nat) : ℚ)) * 100 - lf.2|))).sum :=
  (C3_score_is_frequency_term_only ['T','H','E']).1 (by decide)

theorem vig_mod_lemma : ∀ p k : Fin 26,
    (((((p : Nat) + (k : Nat)) % 26 : Nat) : Int) - ((k : Nat) : Int)) % 26
      = (((p : Nat)) : Int) := by decide

theorem affine_mod_lemma : ∀ p b : Fin 26,
    ((21 * ((5 * (((p : Nat)) : Int) + (((b : Nat)) : Int)) % 26
      - (((b : Nat)) : Int))) % 26).toNat = (p : Nat) := by decide

theorem affine_char_roundtrip {c : Char} (hc : c ∈ ALPHABET) {b : Int}
    (hb0 : 0 ≤ b) (hb26 : b < 26) :
    (fun ch =>
      if ch.isAlpha then
        ALPHABET.getD ((21 * ((ALPHABET.indexOf ch.toUpper : Int) - b)) % 26).toNat 'A'
      else ch)
    ((fun ch =>
      if ch.isAlpha then
        ALPHABET.getD ((5 * (ALPHABET.indexOf ch.toUpper : Int) + b) % 26).toNat 'A'
      else ch) c) = c := by
  have hpa : c.isAlpha = true := mem_ALPHABET_isAlpha hc
  have hup : c.toUpper = c := mem_ALPHABET_toUpper_self hc
  simp only [hpa, if_true]
  have henn : 0 ≤ (5 * (ALPHABET.indexOf c.toUpper : Int) + b) % 26 :=
    Int.emod_nonneg _ (by norm_num)
  have helt : (5 * (ALPHABET.indexOf c.toUpper : Int) + b) % 26 < 26 :=
    Int.emod_lt_of_pos _ (by norm_num)
  have hnlt : ((5 * (ALPHABET.indexOf c.toUpper : Int) + b) % 26).toNat < 26 := by omega
  have hmem := getD_mem_ALPHABET hnlt
  have halpha := mem_ALPHABET_isAlpha hmem
  have hupe := mem_ALPHABET_toUpper_self hmem
  rw [halpha, if_pos rfl, hupe, indexOf_getD hnlt]
  have hcast : ((((5 * (ALPHABET.indexOf c.toUpper : Int) + b) % 26).toNat : Nat) : Int)
      = (5 * (ALPHABET.indexOf c.toUpper : Int) + b) % 26 := by omega
  rw [hcast, hup]
  have hlem := affine_mod_lemma ⟨ALPHABET.indexOf c, indexOf_lt_26 hc⟩ ⟨b.toNat, by omega⟩
  simp only [Fin.val_mk] at hlem
  rw [show ((b.toNat : Nat) : Int) = b by omega] at hlem
  rw [hlem]
  exact getD_indexOf hc

theorem getD_mem_of_lt {l : List Char} {n : Nat} {d : Char} (h : n < l.length) :
    l.getD n d ∈ l := by
  rw [List.getD_eq_get l d h]
  exact List.get_mem l _ _

theorem vigenere_key_letters_mem {key : List Char} :
    ∀ c ∈ vigenere_key_letters key, c ∈ ALPHABET := by
  intro c hcm
  unfold vigenere_key_letters at hcm
  rw [List.mem_filter] at hcm
  obtain ⟨hmap, halpha⟩ := hcm
  rw [List.mem_map] at hmap
  obtain ⟨k, _, rfl⟩ := hmap
  exact toUpper_mem_ALPHABET (by rwa [isAlpha_toUpper] at halpha)

theorem vigenere_key_char_mem {key_letters : List Char}
    (hkmem : ∀ c ∈ key_letters, c ∈ ALPHABET) (ki : Nat) :
    key_letters.getD (ki % key_letters.length) 'A' ∈ ALPHABET := by
  by_cases hlt : ki % key_letters.length < key_letters.length
  · exact hkmem _ (getD_mem_of_lt hlt)
  · rw [List.getD_eq_default]
    · decide
    · omega

theorem vigenere_encrypt_go_mem {key_letters : List Char} :
    ∀ text : List Char, (∀ c ∈ text, c ∈ ALPHABET) → ∀ ki,
      ∀ c ∈ vigenere_encrypt_go key_letters text ki, c ∈ ALPHABET := by
  intro text
  induction text with
  | nil =>
    intro _ ki c hc
    cases hc
  | cons t rest ih =>
    intro hmem ki c hc
    have ht := hmem t (List.mem_cons_self _ _)
    have hta := mem_ALPHABET_isAlpha ht
    unfold vigenere_encrypt_go at hc
    rw [if_pos hta] at hc
    rcases List.mem_cons.mp hc with rfl | hc'
    · exact getD_mem_ALPHABET (Nat.mod_lt _ (by norm_num))
    · exact ih (fun c h => hmem c (List.mem_cons_of_mem _ h)) (ki + 1) c hc'

theorem vigenere_go_roundtrip {key_letters : List Char}
    (hkmem : ∀ c ∈ key_letters, c ∈ ALPHABET) :
    ∀ text : List Char, (∀ c ∈ text, c ∈ ALPHABET) → ∀ ki,
      vigenere_decrypt_go key_letters (vigenere_encrypt_go key_letters text ki) ki
        = text := by
  intro text
  induction text with
  | nil =>
    intro _ ki
    rfl
  | cons t rest ih =>
    intro hmem ki
    have ht : t ∈ ALPHABET := hmem t (List.mem_cons_self _ _)
    have hta : t.isAlpha = true := mem_ALPHABET_isAlpha ht
    have htu : t.toUpper = t := mem_ALPHABET_toUpper_self ht
    have hkc := vigenere_key_char_mem hkmem ki
    have hklt := indexOf_lt_26 hkc
    have hplt : ALPHABET.indexOf t < 26 := indexOf_lt_26 ht
    have hmlt : (ALPHABET.indexOf t +
        ALPHABET.indexOf (key_letters.getD (ki % key_letters.length) 'A')) % 26 < 26 :=
      Nat.mod_lt _ (by norm_num)
    have he := getD_mem_ALPHABET hmlt
    have hea := mem_ALPHABET_isAlpha he
    have heu := mem_ALPHABET_toUpper_self he
    have hlem := vig_mod_lemma ⟨ALPHABET.indexOf t, hplt⟩
      ⟨ALPHABET.indexOf (key_letters.getD (ki % key_letters.length) 'A'), hklt⟩
    simp only [Fin.val_mk] at hlem
    unfold vigenere_encrypt_go
    rw [if_pos hta]
    unfold vigenere_decrypt_go
    dsimp only []
    rw [htu]
    rw [if_pos hea, heu, indexOf_getD hmlt, hlem]
    rw [show ((ALPHABET.indexOf t : Int)).toNat = ALPHABET.indexOf t by omega]
    rw [getD_indexOf ht]
    rw [ih (fun c h => hmem c (List.mem_cons_of_mem _ h)) (ki + 1)]

theorem affine_roundtrip {l : List Char} (hl : ∀ c ∈ l, c ∈ ALPHABET) {b : Int}
    (hb0 : 0 ≤ b) (hb26 : b < 26) :
    affine_decrypt (affine_encrypt l 5 b) 5 b = .ok l := by
  unfold affine_decrypt
  have hmi : mod_inverse 5 26 = some 21 := by decide
  rw [hmi]
  dsimp only []
  unfold affine_encrypt
  rw [List.map_map]
  congr 1
  calc l.map _ = l.map id := by
        apply List.map_congr_left
        intro c hc
        exact affine_char_roundtrip (hl c hc) hb0 hb26
    _ = l := List.map_id l

theorem clean_text_false_eq (p : List Char) :
    clean_text p false = (p.filter Char.isAlpha).map Char.toUpper := rfl

theorem clean_text_mem {p : List Char} : ∀ c ∈ clean_text p false, c ∈ ALPHABET := by
  intro c hc
  rw [clean_text_false_eq, List.mem_map] at hc
  obtain ⟨c', hc', rfl⟩ := hc
  rw [List.mem_filter] at hc'
  exact toUpper_mem_ALPHABET hc'.2

/-- C1: for every plaintext containing at least one letter and every key
containing at least one letter, decrypting the two-stage encryption with
the same key returns the cleaned (letters-only, upper-cased) plaintext,
with `keep_nonletters` at its default `false`. -/
theorem C1_roundtrip :
    ∀ plaintext key : List Char,
      (∃ c ∈ plaintext, c.isAlpha = true) →
      (∃ c ∈ key, c.isAlpha = true) →
      ∃ ct : List Char,
        combined_encrypt plaintext key false = .ok ct ∧
        combined_decrypt ct key false = .ok (clean_text plaintext false) := by
  intro p key hp hkey
  obtain ⟨kc, hkcm, hkca⟩ := hkey
  have hklen : ¬(vigenere_key_letters key).length = 0 := by
    intro h
    have hnil := List.length_eq_zero.mp h
    have : kc.toUpper ∈ vigenere_key_letters key := by
      unfold vigenere_key_letters
      rw [List.mem_filter]
      exact ⟨List.mem_map_of_mem _ hkcm, by rwa [isAlpha_toUpper]⟩
    rw [hnil] at this
    cases this
  have hb0 : 0 ≤ ((key.map Char.toNat).sum : Int) % 26 :=
    Int.emod_nonneg _ (by norm_num)
  have hb26 : ((key.map Char.toNat).sum : Int) % 26 < 26 :=
    Int.emod_lt_of_pos _ (by norm_num)
  have hvig : vigenere_encrypt (clean_text p false) key =
      .ok (vigenere_encrypt_go (vigenere_key_letters key) (clean_text p false) 0) := by
    unfold vigenere_encrypt
    rw [if_neg hklen]
  have hs1mem : ∀ c ∈ vigenere_encrypt_go (vigenere_key_letters key)
      (clean_text p false) 0, c ∈ ALPHABET :=
    vigenere_encrypt_go_mem _ clean_text_mem 0
  refine ⟨affine_encrypt (vigenere_encrypt_go (vigenere_key_letters key)
    (clean_text p false) 0) 5 (((key.map Char.toNat).sum : Int) % 26), ?_, ?_⟩
  · unfold combined_encrypt
    dsimp only []
    rw [hvig]
    rfl
  · unfold combined_decrypt
    dsimp only []
    dsimp only [derive_affine_params_from_key]
    rw [affine_roundtrip hs1mem hb0 hb26]
    show vigenere_decrypt (vigenere_encrypt_go (vigenere_key_letters key)
      (clean_text p false) 0) key = Except.ok (clean_text p false)
    unfold vigenere_decrypt
    rw [if_neg hklen]
    rw [vigenere_go_roundtrip vigenere_key_letters_mem _ clean_text_mem 0]

/-- Witness for C1 at plaintext "Hi!" and key "key". -/
theorem C1_roundtrip_witness :
    ∃ ct : List Char,
      combined_encrypt ['H','i','!'] ['k','e','y'] false = .ok ct ∧
      combined_decrypt ct ['k','e','y'] false = .ok (clean_text ['H','i','!'] false) :=
  C1_roundtrip ['H','i','!'] ['k','e','y']
    ⟨'H', by decide, by decide⟩ ⟨'k', by decide, by decide⟩

theorem bvf_loop_spec (text : List Char) :
    ∀ (n s : Nat) (init res : List Char × List Char × ℚ),
      bvf_loop text (List.range' s n) init = .ok res →
      (res = init ∧ (∀ k, s ≤ k → k < s + n →
          ∃ c, bvf_candidate text k = .ok c ∧ c.2.2 ≤ init.2.2)) ∨
      (∃ k, s ≤ k ∧ k < s + n ∧ bvf_candidate text k = .ok res ∧
          init.2.2 < res.2.2 ∧
          (∀ k', s ≤ k' → k' < k →
            ∃ c, bvf_candidate text k' = .ok c ∧ c.2.2 < res.2.2) ∧
          (∀ k', s ≤ k' → k' < s + n →
            ∃ c, bvf_candidate text k' = .ok c ∧ c.2.2 ≤ res.2.2)) := by
  intro n
  induction n with
  | zero =>
    intro s init res h
    rw [show List.range' s 0 = [] from rfl] at h
    unfold bvf_loop at h
    obtain rfl : init = res := by
      cases h
      rfl
    exact Or.inl ⟨rfl, fun k h1 h2 => absurd h2 (by omega)⟩
  | succ n ih =>
    intro s init res h
    rw [List.range'_succ] at h
    unfold bvf_loop at h
    cases hc : bvf_candidate text s with
    | error e =>
      rw [hc] at h
      cases h
    | ok c =>
      rw [hc] at h
      dsimp only [] at h
      by_cases himp : c.2.2 > init.2.2
      · rw [if_pos himp] at h
        rcases ih (s + 1) c res h with ⟨hres, hall⟩ | ⟨k, hk1, hk2, hcand, hlt, hpre, hall⟩
        · subst hres
          refine Or.inr ⟨s, le_refl s, by omega, hc, himp, ?_, ?_⟩
          · intro k' h1 h2
            omega
          · intro k' h1 h2
            rcases Nat.eq_or_lt_of_le h1 with rfl | hlt'
            · exact ⟨res, hc, le_refl _⟩
            · exact hall k' hlt' (by omega)
        · refine Or.inr ⟨k, by omega, by omega, hcand, lt_trans himp hlt, ?_, ?_⟩
          · intro k' h1 h2
            rcases Nat.eq_or_lt_of_le h1 with rfl | hlt'
            · exact ⟨c, hc, hlt⟩
            · exact hpre k' hlt' h2
          · intro k' h1 h2
            rcases Nat.eq_or_lt_of_le h1 with rfl | hlt'
            · exact ⟨c, hc, le_of_lt hlt⟩
            · exact hall k' hlt' (by omega)
      · rw [if_neg himp] at h
        rcases ih (s + 1) init res h with ⟨hres, hall⟩ | ⟨k, hk1, hk2, hcand, hlt, hpre, hall⟩
        · refine Or.inl ⟨hres, ?_⟩
          intro k' h1 h2
          rcases Nat.eq_or_lt_of_le h1 with rfl | hlt'
          · exact ⟨c, hc, le_of_not_lt himp⟩
          · exact hall k' hlt' (by omega)
        · refine Or.inr ⟨k, by omega, by omega, hcand, hlt, ?_, ?_⟩
          · intro k' h1 h2
            rcases Nat.eq_or_lt_of_le h1 with rfl | hlt'
            · exact ⟨c, hc, by
                have hle : c.2.2 ≤ init.2.2 := le_of_not_lt himp
                linarith⟩
            · exact hpre k' hlt' h2
          · intro k' h1 h2
            rcases Nat.eq_or_lt_of_le h1 with rfl | hlt'
            · exact ⟨c, hc, by
                have hle : c.2.2 ≤ init.2.2 := le_of_not_lt himp
                linarith⟩
            · exact hall k' hlt' (by omega)

theorem mem_bcf_insert_desc {x r : FreqCandidate} {l : List FreqCandidate} :
    x ∈ bcf_insert_desc r l ↔ x = r ∨ x ∈ l := by
  induction l with
  | nil => simp [bcf_insert_desc]
  | cons y ys ih =>
    unfold bcf_insert_desc
    by_cases h : y.score > r.score
    · rw [if_pos h, List.mem_cons, ih, List.mem_cons]
      tauto
    · rw [if_neg h, List.mem_cons, List.mem_cons]

theorem mem_bcf_sort_desc {x : FreqCandidate} {l : List FreqCandidate} :
    x ∈ bcf_sort_desc l ↔ x ∈ l := by
  induction l with
  | nil => simp [bcf_sort_desc]
  | cons y ys ih =>
    unfold bcf_sort_desc
    rw [mem_bcf_insert_desc]
    simp [ih]

theorem bcf_insert_desc_sorted {r : FreqCandidate} {l : List FreqCandidate}
    (hl : l.Pairwise (fun x y => y.score ≤ x.score)) :
    (bcf_insert_desc r l).Pairwise (fun x y => y.score ≤ x.score) := by
  induction l with
  | nil => simp [bcf_insert_desc]
  | cons y ys ih =>
    rw [List.pairwise_cons] at hl
    unfold bcf_insert_desc
    by_cases h : y.score > r.score
    · rw [if_pos h]
      rw [List.pairwise_cons]
      constructor
      · intro z hz
        rcases mem_bcf_insert_desc.mp hz with rfl | hz'
        · exact le_of_lt h
        · exact hl.1 z hz'
      · exact ih hl.2
    · rw [if_neg h]
      rw [List.pairwise_cons]
      constructor
      · intro z hz
        rcases List.mem_cons.mp hz with rfl | hz'
        · exact le_of_not_lt h
        · exact le_trans (hl.1 z hz') (le_of_not_lt h)
      · rw [List.pairwise_cons]
        exact hl
    
theorem bcf_sort_desc_sorted (l : List FreqCandidate) :
    (bcf_sort_desc l).Pairwise (fun x y => y.score ≤ x.score) := by
  induction l with
  | nil => simp [bcf_sort_desc]
  | cons y ys ih =>
    unfold bcf_sort_desc
    exact bcf_insert_desc_sorted ih

theorem bcf_insert_desc_pairwise {Q : FreqCandidate → FreqCandidate → Prop}
    {r : FreqCandidate} {l : List FreqCandidate}
    (hl : l.Pairwise Q)
    (hr : ∀ x ∈ l, Q r x)
    (hvac : ∀ x, r.score < x.score → Q x r) :
    (bcf_insert_desc r l).Pairwise Q := by
  induction l with
  | nil => simp [bcf_insert_desc, List.pairwise_cons]
  | cons y ys ih =>
    rw [List.pairwise_cons] at hl
    unfold bcf_insert_desc
    by_cases h : y.score > r.score
    · rw [if_pos h]
      rw [List.pairwise_cons]
      constructor
      · intro z hz
        rcases mem_bcf_insert_desc.mp hz with rfl | hz'
        · exact hvac y h
        · exact hl.1 z hz'
      · exact ih hl.2 (fun x hx => hr x (List.mem_cons_of_mem _ hx))
    · rw [if_neg h]
      rw [List.pairwise_cons]
      constructor
      · intro z hz
        rcases List.mem_cons.mp hz with rfl | hz'
        · exact hr z (List.mem_cons_self _ _)
        · exact hr z (List.mem_cons_of_mem _ hz')
      · rw [List.pairwise_cons]
        exact hl

theorem bcf_sort_desc_pairwise {Q : FreqCandidate → FreqCandidate → Prop}
    {l : List FreqCandidate}
    (hl : l.Pairwise Q)
    (hvac : ∀ x y, y.score < x.score → Q x y) :
    (bcf_sort_desc l).Pairwise Q := by
  induction l with
  | nil => simp [bcf_sort_desc]
  | cons y ys ih =>
    rw [List.pairwise_cons] at hl
    unfold bcf_sort_desc
    apply bcf_insert_desc_pairwise (ih hl.2)
    · intro x hx
      exact hl.1 x (mem_bcf_sort_desc.mp hx)
    · intro x hx
      exact hvac x y hx

theorem pairwise_flatMap_of {α β : Type} {R : β → β → Prop} (S : α → α → Prop)
    {l : List α} {f : α → List β}
    (hl : l.Pairwise S)
    (hin : ∀ a ∈ l, (f a).Pairwise R)
    (hcross : ∀ a ∈ l, ∀ a' ∈ l, S a a' → ∀ x ∈ f a, ∀ y ∈ f a', R x y) :
    (l.flatMap f).Pairwise R := by
  induction l with
  | nil => simp
  | cons a l ih =>
    rw [List.pairwise_cons] at hl
    rw [show (a :: l).flatMap f = f a ++ l.flatMap f from rfl, List.pairwise_append]
    refine ⟨hin a (List.mem_cons_self _ _), ?_, ?_⟩
    · exact ih hl.2 (fun x hx => hin x (List.mem_cons_of_mem _ hx))
        (fun x hx x' hx' => hcross x (List.mem_cons_of_mem _ hx) x'
          (List.mem_cons_of_mem _ hx'))
    · intro x hx y hy
      rw [List.mem_bind] at hy
      obtain ⟨a', ha', hy⟩ := hy
      exact hcross a (List.mem_cons_self _ _) a' (List.mem_cons_of_mem _ ha')
        (hl.1 a' ha') x hx y hy

theorem mem_bcf_cell {c_clean : List Char} {maxk : Nat} {a : Int} {b : Nat}
    {r : FreqCandidate}
    (h : r ∈ (match affine_decrypt c_clean a (b : Int) with
      | .error _ => ([] : List FreqCandidate)
      | .ok after_affine =>
        match break_vigenere_frequency after_affine maxk with
        | .error _ => []
        | .ok rr => [⟨a, (b : Int), rr.1, rr.2.1, rr.2.2⟩])) :
    r.affine_a = a ∧ r.affine_b = (b : Int) ∧
    ∃ after_affine, affine_decrypt c_clean a (b : Int) = .ok after_affine ∧
      break_vigenere_frequency after_affine maxk =
        .ok (r.vigenere_key, r.plaintext, r.score) := by
  cases haff : affine_decrypt c_clean a (b : Int) with
  | error e =>
    rw [haff] at h
    cases h
  | ok after_affine =>
    rw [haff] at h
    dsimp only [] at h
    cases hbvf : break_vigenere_frequency after_affine maxk with
    | error e =>
      rw [hbvf] at h
      cases h
    | ok rr =>
      rw [hbvf] at h
      rw [List.mem_singleton] at h
      subst h
      exact ⟨rfl, rfl, after_affine, rfl, hbvf⟩

theorem bcf_results_pairwise (c_clean : List Char) (maxk : Nat) :
    (bcf_results c_clean maxk).Pairwise (fun x y =>
      x.affine_a < y.affine_a ∨ (x.affine_a = y.affine_a ∧ x.affine_b < y.affine_b)) := by
  unfold bcf_results
  apply pairwise_flatMap_of (fun a a' : Int => a < a')
  · decide
  · intro a _
    apply pairwise_flatMap_of (fun b b' : Nat => b < b')
    · exact List.pairwise_lt_range 26
    · intro b _
      cases affine_decrypt c_clean a (b : Int) with
      | error e => exact List.Pairwise.nil
      | ok after_affine =>
        dsimp only []
        cases break_vigenere_frequency after_affine maxk with
        | error e => exact List.Pairwise.nil
        | ok rr => exact List.pairwise_singleton _ _
    · intro b _ b' _ hbb x hx y hy
      obtain ⟨hxa, hxb, -⟩ := mem_bcf_cell hx
      obtain ⟨hya, hyb, -⟩ := mem_bcf_cell hy
      right
      refine ⟨hxa.trans hya.symm, ?_⟩
      rw [hxb, hyb]
      exact_mod_cast hbb
  · intro a ha a' ha' haa x hx y hy
    rw [List.mem_bind] at hx hy
    obtain ⟨b, _, hx⟩ := hx
    obtain ⟨b', _, hy⟩ := hy
    obtain ⟨hxa, -, -⟩ := mem_bcf_cell hx
    obtain ⟨hya, -, -⟩ := mem_bcf_cell hy
    left
    rw [hxa, hya]
    exact haa

theorem break_combined_frequency_eq (ciphertext : List Char) (maxk : Nat) :
    break_combined_frequency ciphertext maxk =
      if (ciphertext.filter Char.isAlpha).map Char.toUpper = [] then .needAlpha
      else if bcf_results ((ciphertext.filter Char.isAlpha).map Char.toUpper) maxk = []
        then .noResults
      else .success (bcf_sort_desc
        (bcf_results ((ciphertext.filter Char.isAlpha).map Char.toUpper) maxk)) := rfl

theorem bvf_candidate_score_nonneg {text : List Char} {k : Nat}
    {c : List Char × List Char × ℚ} (h : bvf_candidate text k = .ok c) :
    0 ≤ c.2.2 := by
  unfold bvf_candidate at h
  dsimp only [] at h
  cases hv : vigenere_decrypt text (bvf_key_chars text k) with
  | error e =>
    rw [hv] at h
    cases h
  | ok plain =>
    rw [hv] at h
    dsimp only [] at h
    cases h
    exact (calculate_english_score_bounds plain).1

/-- C5: in `break_combined_frequency` the reported candidates are ranked by
English-likeness score, higher first; whenever two candidates tie, the one
discovered first — lexicographically smaller `(a, b)` in the grid order —
is ranked ahead; and within one `(a, b)` the kept result is the one of the
smallest key length attaining the maximal score (strict improvement only in
`break_vigenere_frequency`). -/
theorem C5_frequency_ranking :
    ∀ (ciphertext : List Char) (max_vig_keylen : Nat) (out : List FreqCandidate),
      break_combined_frequency ciphertext max_vig_keylen = .success out →
      out.Pairwise (fun x y =>
        y.score ≤ x.score ∧
        (x.score = y.score → x.affine_a < y.affine_a ∨
          (x.affine_a = y.affine_a ∧ x.affine_b < y.affine_b))) ∧
      (1 ≤ max_vig_keylen →
        ∀ r ∈ out, ∃ after_affine : List Char,
          affine_decrypt ((ciphertext.filter Char.isAlpha).map Char.toUpper)
            r.affine_a r.affine_b = .ok after_affine ∧
          ∃ kl, 1 ≤ kl ∧ kl < 1 + max_vig_keylen ∧
            bvf_candidate after_affine kl = .ok (r.vigenere_key, r.plaintext, r.score) ∧
            (∀ kl', 1 ≤ kl' → kl' < kl →
              ∃ c, bvf_candidate after_affine kl' = .ok c ∧ c.2.2 < r.score) ∧
            (∀ kl', 1 ≤ kl' → kl' < 1 + max_vig_keylen →
              ∃ c, bvf_candidate after_affine kl' = .ok c ∧ c.2.2 ≤ r.score)) := by
  intro ct maxk out h
  rw [break_combined_frequency_eq] at h
  by_cases h1 : (ct.filter Char.isAlpha).map Char.toUpper = []
  · rw [if_pos h1] at h
    cases h
  · rw [if_neg h1] at h
    by_cases h2 : bcf_results ((ct.filter Char.isAlpha).map Char.toUpper) maxk = []
    · rw [if_pos h2] at h
      cases h
    · rw [if_neg h2] at h
      have hout : out = bcf_sort_desc
          (bcf_results ((ct.filter Char.isAlpha).map Char.toUpper) maxk) := by
        cases h
        rfl
      subst hout
      constructor
      · exact List.Pairwise.and (bcf_sort_desc_sorted _)
          (bcf_sort_desc_pairwise
            ((bcf_results_pairwise _ _).imp (fun hg => fun _ => hg))
            (fun x y hlt heq => absurd heq (ne_of_gt hlt)))
      · intro hmax r hr
        rw [mem_bcf_sort_desc] at hr
        unfold bcf_results at hr
        rw [List.mem_bind] at hr
        obtain ⟨a, _, hr⟩ := hr
        rw [List.mem_bind] at hr
        obtain ⟨b, _, hr⟩ := hr
        obtain ⟨hra, hrb, after_affine, haff, hbvf⟩ := mem_bcf_cell hr
        refine ⟨after_affine, by rw [hra, hrb]; exact haff, ?_⟩
        unfold break_vigenere_frequency at hbvf
        rcases bvf_loop_spec after_affine maxk 1 ([], [], -1) _ hbvf with
          ⟨hres, hall⟩ | ⟨kl, hk1, hk2, hcand, _, hpre, hall⟩
        · exfalso
          obtain ⟨c, hc, hcle⟩ := hall 1 (le_refl 1) (by omega)
          have h0 := bvf_candidate_score_nonneg hc
          have hm1 : ((([] : List Char), ([] : List Char), (-1 : ℚ))).2.2 = (-1 : ℚ) := rfl
          rw [hm1] at hcle
          linarith
        · exact ⟨kl, hk1, hk2, hcand, hpre, hall⟩

/-- Witness for C5: the ranking property instantiated on the one-letter
ciphertext "A" with `max_vig_keylen = 0`. -/
theorem C5_frequency_ranking_witness :
    (bcf_sort_desc (bcf_results ((['A'].filter Char.isAlpha).map Char.toUpper) 0)).Pairwise
      (fun x y => y.score ≤ x.score ∧ (x.score = y.score → x.affine_a < y.affine_a ∨
        (x.affine_a = y.affine_a ∧ x.affine_b < y.affine_b))) :=
  (C5_frequency_ranking ['A'] 0 _
    (by rw [break_combined_frequency_eq, if_neg (by decide), if_neg (by decide)])).1
